import Mathlib

/-!
Verification of the budget-allocation engine of the Fractional Stock
Investor application (`src/App.tsx`): the greedy allocation
(`handleCalculateInvestment`), stock removal (`handleRemoveStock`) and the
manual adjustment of one stock's invested amount (`handleAdjustInvestment`).

JavaScript numbers are modelled as exact rationals (`ℚ`).  The adjustment
handler is the one place where the non-finite values `NaN` / `±Infinity`
can flow in (from `parseFloat` of free text), so its amount argument is
modelled by the `JSNum` type, with the IEEE-754 behaviour of the few
operations the handler performs on it.
-/

/-- `Stock` record from `src/types.ts`. -/
structure Stock where
  id : String
  name : String
  price : ℚ
  expectedReturn : ℚ
deriving DecidableEq, Repr

/-- `InvestmentResult` record from `src/types.ts`. -/
structure InvestmentResult where
  stockId : String
  stockName : String
  fraction : ℚ
  investedAmount : ℚ
  actualReturn : ℚ
deriving DecidableEq, Repr

/-- The zero-valued result a stock receives before (or instead of) any buy:
`{ stockId, stockName, fraction: 0, investedAmount: 0, actualReturn: 0 }`. -/
def zeroResult (stock : Stock) : InvestmentResult :=
  { stockId := stock.id, stockName := stock.name, fraction := 0,
    investedAmount := 0, actualReturn := 0 }

/-- JavaScript `Map.set` keyed by `stockId`, with the map held as the list of
its values in insertion order: overwrite the entry holding the key (keeping
its position), otherwise append. -/
def mapSet (m : List InvestmentResult) (r : InvestmentResult) :
    List InvestmentResult :=
  if m.any (fun x => decide (x.stockId = r.stockId)) then
    m.map (fun x => if x.stockId = r.stockId then r else x)
  else m ++ [r]

/-- The in-place mutation of the map entry for `id` performed inside the
allocation loop (`existingResult.fraction = ...` etc. in `src/App.tsx`,
lines 86-91): overwrite the three numeric fields of the entry for `id`,
leaving every other entry untouched. -/
def mapUpdate (m : List InvestmentResult) (id : String)
    (fraction investedAmount actualReturn : ℚ) : List InvestmentResult :=
  m.map fun x =>
    if x.stockId = id then
      { x with fraction := fraction, investedAmount := investedAmount,
               actualReturn := actualReturn }
    else x

/-- Return-to-price ratio used as the greedy ranking key
(`stock.expectedReturn / stock.price`). -/
def efficiency (s : Stock) : ℚ := s.expectedReturn / s.price

/-- The sort comparator of `src/App.tsx` lines 61-63 is
`(a, b) => (b.expectedReturn / b.price) - (a.expectedReturn / a.price)`;
`a` sorts no later than `b` exactly when that comparator is `≤ 0`, i.e. when
`efficiency b ≤ efficiency a`. -/
def effLe (a b : Stock) : Bool := decide (efficiency b ≤ efficiency a)

/-- `[...stocks].sort(comparator)`: JavaScript's `Array.prototype.sort` is
stable, so it is embedded as a stable merge sort under `effLe`. -/
def sortStocks (stocks : List Stock) : List Stock := stocks.mergeSort effLe

/-- The mutable locals of `handleCalculateInvestment`'s loop:
`currentBudget`, `currentTotalReturn`, `currentTotalInvestedAmount` and the
`resultsMap` (held as its values in insertion order). -/
structure AllocState where
  currentBudget : ℚ
  currentTotalReturn : ℚ
  currentTotalInvested : ℚ
  resultsMap : List InvestmentResult
deriving DecidableEq, Repr

/-- The three loop locals `fraction`, `investedAmount`, `actualReturn`
computed for the current stock (`src/App.tsx` lines 68-84). -/
structure Buy where
  fraction : ℚ
  investedAmount : ℚ
  actualReturn : ℚ
deriving DecidableEq, Repr

/-- Lines 72-84: when `currentBudget >= stock.price`, buy
`numShares = Math.floor(currentBudget / stock.price)` whole shares;
otherwise buy a fraction consuming the whole remaining budget. -/
def buyOf (currentBudget : ℚ) (stock : Stock) : Buy :=
  if stock.price ≤ currentBudget then
    let numShares : ℤ := ⌊currentBudget / stock.price⌋
    { fraction := (numShares : ℚ)
      investedAmount := (numShares : ℚ) * stock.price
      actualReturn := ((numShares : ℚ) * stock.price) *
        (stock.expectedReturn / 100) }
  else
    { fraction := currentBudget / stock.price
      investedAmount := currentBudget
      actualReturn := currentBudget * (stock.expectedReturn / 100) }

/-- The `for (const stock of sortedStocks)` loop of `src/App.tsx` lines
65-96: stop as soon as `currentBudget <= 0`; otherwise compute the buy for
the current stock, record it in the results map, and update the running
budget and totals. -/
def allocLoop : AllocState → List Stock → AllocState
  | st, [] => st
  | st, stock :: rest =>
    if st.currentBudget ≤ 0 then st
    else
      let buy := buyOf st.currentBudget stock
      allocLoop
        { currentBudget := st.currentBudget - buy.investedAmount
          currentTotalReturn := st.currentTotalReturn + buy.actualReturn
          currentTotalInvested := st.currentTotalInvested + buy.investedAmount
          resultsMap := mapUpdate st.resultsMap stock.id buy.fraction
            buy.investedAmount buy.actualReturn }
        rest

/-- What `handleCalculateInvestment` publishes back into the component state:
`investmentResults`, `totalInvestedAmount`, `totalActualReturn`. -/
structure AllocOutput where
  results : List InvestmentResult
  totalInvested : ℚ
  totalReturn : ℚ
deriving DecidableEq, Repr

/-- `handleCalculateInvestment` (`src/App.tsx` lines 27-103).  When
`budget <= 0 || stocks.length === 0`, every stock gets a zero-valued result
and both totals are 0 (the handler alerts and returns).  Otherwise the
results map is initialised with a zero-valued entry per stock, the stocks
are sorted by efficiency descending, and the greedy loop runs. -/
def handleCalculateInvestment (budget : ℚ) (stocks : List Stock) :
    AllocOutput :=
  if budget ≤ 0 ∨ stocks.length = 0 then
    { results := stocks.map zeroResult, totalInvested := 0, totalReturn := 0 }
  else
    let final := allocLoop
      { currentBudget := budget, currentTotalReturn := 0,
        currentTotalInvested := 0,
        resultsMap := stocks.foldl (fun m s => mapSet m (zeroResult s)) [] }
      (sortStocks stocks)
    { results := final.resultsMap,
      totalInvested := final.currentTotalInvested,
      totalReturn := final.currentTotalReturn }

/-- `handleRemoveStock` (`src/App.tsx` lines 105-115).  The handler filters
the stock out of `stocks` (and its entry out of `investmentResults`), then
schedules `handleCalculateInvestment()` in a `setTimeout`.  The callback it
schedules is the memoized closure captured at the render in which the click
happened, i.e. *before* the state updates, so the deferred recalculation
that overwrites `investmentResults` and both totals runs over the original
`stocks` list — the removed stock included — not over the filtered one.
The first component is the new `stocks` state, the second the
results/totals state once the deferred recalculation has run. -/
def handleRemoveStock (budget : ℚ) (stocks : List Stock) (id : String) :
    List Stock × AllocOutput :=
  (stocks.filter (fun s => decide (¬ s.id = id)),
    handleCalculateInvestment budget stocks)

/-- A JavaScript number as it can reach `handleAdjustInvestment` from
`parseFloat`: `NaN`, `Infinity`, `-Infinity`, or a finite value. -/
inductive JSNum where
  | nan
  | posInf
  | negInf
  | fin (q : ℚ)
deriving DecidableEq, Repr

/-- `isNaN(x)`. -/
def JSNum.isNaN : JSNum → Bool
  | .nan => true
  | _ => false

/-- `x < 0` under IEEE-754 (`NaN < 0` is `false`). -/
def JSNum.ltZero : JSNum → Bool
  | .nan => false
  | .posInf => false
  | .negInf => true
  | .fin q => decide (q < 0)

/-- `x - c` for finite `c` under IEEE-754. -/
def JSNum.subFin : JSNum → ℚ → JSNum
  | .nan, _ => .nan
  | .posInf, _ => .posInf
  | .negInf, _ => .negInf
  | .fin a, c => .fin (a - c)

/-- `c + x` for finite `c` under IEEE-754. -/
def JSNum.finAdd : ℚ → JSNum → JSNum
  | _, .nan => .nan
  | _, .posInf => .posInf
  | _, .negInf => .negInf
  | c, .fin a => .fin (c + a)

/-- `x > b` for finite `b` under IEEE-754 (`NaN > b` is `false`). -/
def JSNum.gtFin : JSNum → ℚ → Bool
  | .nan, _ => false
  | .posInf, _ => true
  | .negInf, _ => false
  | .fin a, b => decide (b < a)

/-- The finite payload.  The default `0` for the non-finite constructors is
dead: the success path of the adjustment handler that reads it is reachable
only for finite amounts (`NaN` and negatives are rejected by the input
check, `Infinity` by the budget check). -/
def JSNum.toQ : JSNum → ℚ
  | .fin q => q
  | _ => 0

/-- The three alert paths of `handleAdjustInvestment`: invalid input
(`isNaN(newAmount) || newAmount < 0`), stock id not found in `stocks`, and
over-budget (the alert reports the attempted amount, the budget and the
current total, carried here as payload). -/
inductive AdjustError where
  | invalidInput
  | stockNotFound
  | budgetExceeded (attempted : JSNum) (budget currentTotal : ℚ)
deriving DecidableEq, Repr

/-- The component state the adjustment handler reads and writes:
`investmentResults`, `totalInvestedAmount`, `totalActualReturn`. -/
structure AdjustState where
  results : List InvestmentResult
  totalInvestedAmount : ℚ
  totalActualReturn : ℚ
deriving DecidableEq, Repr

/-- `investmentResults.find(r => r.stockId === stockId)?.investedAmount || 0`
(`src/App.tsx` lines 134-135): the invested amount currently recorded for
`stockId`, or `0` when no result entry carries that id. -/
def currentInvested (results : List InvestmentResult) (stockId : String) : ℚ :=
  ((results.find? (fun r => decide (r.stockId = stockId))).map
    (fun r => r.investedAmount)).getD 0

/-- `updatedResults.reduce((sum, res) => sum + res.investedAmount, 0)`. -/
def sumInvested (l : List InvestmentResult) : ℚ :=
  l.foldl (fun sum r => sum + r.investedAmount) 0

/-- `updatedResults.reduce((sum, res) => sum + res.actualReturn, 0)`. -/
def sumActualReturn (l : List InvestmentResult) : ℚ :=
  l.foldl (fun sum r => sum + r.actualReturn) 0

/-- `handleAdjustInvestment` (`src/App.tsx` lines 117-169), with the
`parseFloat` result of the text input passed in as `newAmount`.  An error
outcome corresponds to an early `return` after an `alert`: no `set*` call
runs, so the state component of the pair is returned untouched. -/
def handleAdjustInvestment (budget : ℚ) (stocks : List Stock)
    (st : AdjustState) (stockId : String) (newAmount : JSNum) :
    AdjustState × Option AdjustError :=
  if newAmount.isNaN || newAmount.ltZero then
    (st, some .invalidInput)
  else
    match stocks.find? (fun s => decide (s.id = stockId)) with
    | none => (st, some .stockNotFound)
    | some stockToAdjust =>
      let currentInvestmentAmount := currentInvested st.results stockId
      let amountDifference := newAmount.subFin currentInvestmentAmount
      let newTotalInvested :=
        JSNum.finAdd st.totalInvestedAmount amountDifference
      if newTotalInvested.gtFin budget then
        (st, some (.budgetExceeded newAmount budget st.totalInvestedAmount))
      else
        let a := newAmount.toQ
        let updatedResults := st.results.map fun result =>
          if result.stockId = stockId then
            { result with
              fraction := a / stockToAdjust.price
              investedAmount := a
              actualReturn := a * (stockToAdjust.expectedReturn / 100) }
          else result
        ({ results := updatedResults
           totalInvestedAmount := sumInvested updatedResults
           totalActualReturn := sumActualReturn updatedResults }, none)

/-- Per-entry return consistency: every result entry's `actualReturn` equals
its `investedAmount` times its stock's `expectedReturn / 100`, the stock
being drawn (by id) from the given stock list. -/
def returnInvariant (stocks : List Stock) (results : List InvestmentResult) :
    Prop :=
  ∀ r ∈ results, ∃ s ∈ stocks, r.stockId = s.id ∧
    r.actualReturn = r.investedAmount * (s.expectedReturn / 100)

/-! ## Helper lemmas -/

theorem foldl_add_shift (f : InvestmentResult → ℚ) :
    ∀ (l : List InvestmentResult) (a : ℚ),
      l.foldl (fun sum r => sum + f r) a =
        a + l.foldl (fun sum r => sum + f r) 0
  | [], a => by simp
  | r :: t, a => by
    simp only [List.foldl_cons]
    rw [foldl_add_shift f t, foldl_add_shift f t (0 + f r)]
    ring

theorem sumInvested_cons (r : InvestmentResult) (l : List InvestmentResult) :
    sumInvested (r :: l) = r.investedAmount + sumInvested l := by
  simp only [sumInvested, List.foldl_cons]
  rw [foldl_add_shift]
  ring

theorem sumActualReturn_cons (r : InvestmentResult)
    (l : List InvestmentResult) :
    sumActualReturn (r :: l) = r.actualReturn + sumActualReturn l := by
  simp only [sumActualReturn, List.foldl_cons]
  rw [foldl_add_shift]
  ring

theorem sumInvested_nil : sumInvested [] = 0 := rfl

theorem sumInvested_zeroResults (stocks : List Stock) :
    sumInvested (stocks.map zeroResult) = 0 := by
  induction stocks with
  | nil => rfl
  | cons s t ih => simp [sumInvested_cons, ih, zeroResult]

theorem mapUpdate_ids (m : List InvestmentResult) (id : String)
    (f i a : ℚ) :
    (mapUpdate m id f i a).map (fun r => r.stockId) =
      m.map (fun r => r.stockId) := by
  induction m with
  | nil => rfl
  | cons hd tl ih =>
    simp only [mapUpdate, List.map_cons] at ih ⊢
    rw [ih]
    by_cases h : hd.stockId = id
    · simp [h]
    · simp [h]

theorem mapUpdate_no_match (m : List InvestmentResult) (id : String)
    (f i a : ℚ) (h : ∀ r ∈ m, r.stockId ≠ id) :
    mapUpdate m id f i a = m := by
  induction m with
  | nil => rfl
  | cons hd tl ih =>
    simp only [mapUpdate, List.map_cons] at ih ⊢
    rw [if_neg (h hd (List.mem_cons_self hd tl))]
    rw [ih fun r hr => h r (List.mem_cons_of_mem hd hr)]

theorem sumInvested_mapUpdate (m : List InvestmentResult) (id : String)
    (f i a : ℚ) (hnd : (m.map (fun r => r.stockId)).Nodup)
    (r0 : InvestmentResult) (hr0 : r0 ∈ m) (hid : r0.stockId = id)
    (h0 : r0.investedAmount = 0) :
    sumInvested (mapUpdate m id f i a) = sumInvested m + i := by
  induction m with
  | nil => cases hr0
  | cons hd tl ih =>
    simp only [List.map_cons, List.nodup_cons] at hnd
    rcases List.mem_cons.mp hr0 with h | h
    · subst h
      simp only [mapUpdate, List.map_cons, if_pos hid]
      have htl : mapUpdate tl id f i a = tl := by
        apply mapUpdate_no_match
        intro r hr hrid
        apply hnd.1
        rw [hid, ← hrid]
        exact List.mem_map_of_mem (fun x => x.stockId) hr
      simp only [mapUpdate] at htl
      rw [htl, sumInvested_cons, sumInvested_cons, h0]
      ring
    · have hhd : hd.stockId ≠ id := by
        intro hc
        exact hnd.1 (hc ▸ hid ▸ List.mem_map_of_mem (fun x => x.stockId) h)
      simp only [mapUpdate, List.map_cons, if_neg hhd]
      have := ih hnd.2 h
      simp only [mapUpdate] at this
      rw [sumInvested_cons, sumInvested_cons, this]
      ring

theorem buyOf_actualReturn (b : ℚ) (s : Stock) :
    (buyOf b s).actualReturn =
      (buyOf b s).investedAmount * (s.expectedReturn / 100) := by
  unfold buyOf
  split <;> rfl

theorem buyOf_invested_le (b : ℚ) (s : Stock) (hp : 0 < s.price) :
    (buyOf b s).investedAmount ≤ b := by
  unfold buyOf
  split
  case isTrue h =>
    have h1 : ((⌊b / s.price⌋ : ℚ)) ≤ b / s.price := Int.floor_le _
    have h2 : ((⌊b / s.price⌋ : ℚ)) * s.price ≤ (b / s.price) * s.price :=
      mul_le_mul_of_nonneg_right h1 hp.le
    simpa [div_mul_cancel₀ b hp.ne'] using h2
  case isFalse h => exact le_refl b

theorem allocLoop_budget_nonneg :
    ∀ (l : List Stock) (st : AllocState),
      (∀ s ∈ l, 0 < s.price) → 0 ≤ st.currentBudget →
      0 ≤ (allocLoop st l).currentBudget
  | [], _, _, hb => hb
  | stock :: rest, st, hp, hb => by
    rw [allocLoop]
    by_cases h : st.currentBudget ≤ 0
    · simpa [h] using hb
    · simp only [if_neg h]
      apply allocLoop_budget_nonneg rest _
        (fun s hs => hp s (List.mem_cons_of_mem stock hs))
      have := buyOf_invested_le st.currentBudget stock
        (hp stock (List.mem_cons_self stock rest))
      simp only
      linarith

theorem allocLoop_invested_budget :
    ∀ (l : List Stock) (st : AllocState),
      (allocLoop st l).currentTotalInvested + (allocLoop st l).currentBudget =
        st.currentTotalInvested + st.currentBudget
  | [], _ => rfl
  | stock :: rest, st => by
    rw [allocLoop]
    by_cases h : st.currentBudget ≤ 0
    · simp [h]
    · simp only [if_neg h]
      rw [allocLoop_invested_budget rest]
      simp only
      ring

theorem allocLoop_ids :
    ∀ (l : List Stock) (st : AllocState),
      (allocLoop st l).resultsMap.map (fun r => r.stockId) =
        st.resultsMap.map (fun r => r.stockId)
  | [], _ => rfl
  | stock :: rest, st => by
    rw [allocLoop]
    by_cases h : st.currentBudget ≤ 0
    · simp [h]
    · simp only [if_neg h]
      rw [allocLoop_ids rest]
      simp only [mapUpdate_ids]

theorem allocLoop_sum :
    ∀ (l : List Stock) (st : AllocState),
      (st.resultsMap.map (fun r => r.stockId)).Nodup →
      (l.map (fun s => s.id)).Nodup →
      (∀ s ∈ l, ∃ r ∈ st.resultsMap, r.stockId = s.id ∧
        r.investedAmount = 0) →
      sumInvested (allocLoop st l).resultsMap + st.currentTotalInvested =
        sumInvested st.resultsMap + (allocLoop st l).currentTotalInvested
  | [], _, _, _, _ => rfl
  | stock :: rest, st, hnd, hlnd, hz => by
    rw [allocLoop]
    by_cases h : st.currentBudget ≤ 0
    · simp [h]
    · simp only [if_neg h]
      simp only [List.map_cons, List.nodup_cons] at hlnd
      obtain ⟨r0, hr0, hr0id, hr00⟩ := hz stock (List.mem_cons_self stock rest)
      have hupd : sumInvested (mapUpdate st.resultsMap stock.id
          (buyOf st.currentBudget stock).fraction
          (buyOf st.currentBudget stock).investedAmount
          (buyOf st.currentBudget stock).actualReturn) =
          sumInvested st.resultsMap +
            (buyOf st.currentBudget stock).investedAmount :=
        sumInvested_mapUpdate _ _ _ _ _ hnd r0 hr0 hr0id hr00
      have hrec := allocLoop_sum rest
        { currentBudget := st.currentBudget -
            (buyOf st.currentBudget stock).investedAmount
          currentTotalReturn := st.currentTotalReturn +
            (buyOf st.currentBudget stock).actualReturn
          currentTotalInvested := st.currentTotalInvested +
            (buyOf st.currentBudget stock).investedAmount
          resultsMap := mapUpdate st.resultsMap stock.id
            (buyOf st.currentBudget stock).fraction
            (buyOf st.currentBudget stock).investedAmount
            (buyOf st.currentBudget stock).actualReturn }
        (by simpa [mapUpdate_ids] using hnd)
        hlnd.2
        (by
          intro s hs
          obtain ⟨r, hr, hrid, hr0'⟩ := hz s (List.mem_cons_of_mem stock hs)
          refine ⟨r, ?_, hrid, hr0'⟩
          have hne : r.stockId ≠ stock.id := by
            intro hc
            apply hlnd.1
            rw [← hc, hrid]
            exact List.mem_map_of_mem (fun x => x.id) hs
          dsimp only
          unfold mapUpdate
          refine List.mem_map.mpr ⟨r, hr, ?_⟩
          rw [if_neg hne])
      dsimp only at hrec ⊢
      rw [hupd] at hrec
      linarith

theorem foldl_mapSet_append :
    ∀ (stocks : List Stock) (acc : List InvestmentResult),
      (stocks.map (fun s => s.id)).Nodup →
      (∀ s ∈ stocks, ∀ r ∈ acc, r.stockId ≠ s.id) →
      stocks.foldl (fun m s => mapSet m (zeroResult s)) acc =
        acc ++ stocks.map zeroResult
  | [], acc, _, _ => by simp
  | s :: rest, acc, hnd, hdisj => by
    simp only [List.foldl_cons]
    have hset : mapSet acc (zeroResult s) = acc ++ [zeroResult s] := by
      unfold mapSet
      rw [if_neg]
      simp only [List.any_eq_true, decide_eq_true_eq, zeroResult, not_exists,
        not_and]
      exact fun r hr => hdisj s (List.mem_cons_self s rest) r hr
    rw [hset]
    simp only [List.map_cons, List.nodup_cons] at hnd
    rw [foldl_mapSet_append rest (acc ++ [zeroResult s]) hnd.2 ?_]
    · simp
    · intro s' hs' r hr
      rcases List.mem_append.mp hr with h | h
      · exact hdisj s' (List.mem_cons_of_mem s hs') r h
      · have : r = zeroResult s := List.mem_singleton.mp h
        subst this
        simp only [zeroResult]
        intro hc
        apply hnd.1
        rw [hc]
        exact List.mem_map_of_mem (fun x => x.id) hs'

theorem resultsMapInit_eq (stocks : List Stock)
    (hnd : (stocks.map (fun s => s.id)).Nodup) :
    stocks.foldl (fun m s => mapSet m (zeroResult s)) [] =
      stocks.map zeroResult := by
  have := foldl_mapSet_append stocks [] hnd (by intro s _ r hr; cases hr)
  simpa using this

theorem mem_mapSet {x r : InvestmentResult} {m : List InvestmentResult}
    (h : x ∈ mapSet m r) : x ∈ m ∨ x = r := by
  unfold mapSet at h
  split at h
  · obtain ⟨y, hy, hyx⟩ := List.mem_map.mp h
    by_cases hc : y.stockId = r.stockId
    · right
      rw [← hyx, if_pos hc]
    · left
      rwa [← hyx, if_neg hc]
  · rcases List.mem_append.mp h with h' | h'
    · exact Or.inl h'
    · exact Or.inr (List.mem_singleton.mp h')

theorem mem_foldl_mapSet :
    ∀ (stocks : List Stock) (acc : List InvestmentResult)
      (x : InvestmentResult),
      x ∈ stocks.foldl (fun m s => mapSet m (zeroResult s)) acc →
      x ∈ acc ∨ ∃ s ∈ stocks, x = zeroResult s
  | [], _, _, h => Or.inl h
  | s :: rest, acc, x, h => by
    simp only [List.foldl_cons] at h
    rcases mem_foldl_mapSet rest (mapSet acc (zeroResult s)) x h with h' | h'
    · rcases mem_mapSet h' with h'' | h''
      · exact Or.inl h''
      · exact Or.inr ⟨s, List.mem_cons_self s rest, h''⟩
    · obtain ⟨s', hs', hx⟩ := h'
      exact Or.inr ⟨s', List.mem_cons_of_mem s hs', hx⟩

theorem returnInvariant_mapUpdate {stocks : List Stock}
    {m : List InvestmentResult} (stock : Stock) (hstock : stock ∈ stocks)
    (hinv : returnInvariant stocks m) (b : ℚ) :
    returnInvariant stocks (mapUpdate m stock.id (buyOf b stock).fraction
      (buyOf b stock).investedAmount (buyOf b stock).actualReturn) := by
  intro r' hr'
  unfold mapUpdate at hr'
  obtain ⟨r, hr, hrr'⟩ := List.mem_map.mp hr'
  by_cases hc : r.stockId = stock.id
  · rw [← hrr', if_pos hc]
    exact ⟨stock, hstock, hc, buyOf_actualReturn b stock⟩
  · rw [← hrr', if_neg hc]
    exact hinv r hr

theorem allocLoop_returnInvariant :
    ∀ (l : List Stock) (st : AllocState) (stocks : List Stock),
      (∀ s ∈ l, s ∈ stocks) →
      returnInvariant stocks st.resultsMap →
      returnInvariant stocks (allocLoop st l).resultsMap
  | [], _, _, _, hinv => hinv
  | stock :: rest, st, stocks, hsub, hinv => by
    rw [allocLoop]
    by_cases h : st.currentBudget ≤ 0
    · simpa [h] using hinv
    · simp only [if_neg h]
      apply allocLoop_returnInvariant rest _ stocks
        (fun s hs => hsub s (List.mem_cons_of_mem stock hs))
      exact returnInvariant_mapUpdate stock
        (hsub stock (List.mem_cons_self stock rest)) hinv st.currentBudget

theorem effLe_trans (a b c : Stock) (h1 : effLe a b = true)
    (h2 : effLe b c = true) : effLe a c = true := by
  simp only [effLe, decide_eq_true_eq] at h1 h2 ⊢
  exact le_trans h2 h1

theorem effLe_total (a b : Stock) : (effLe a b || effLe b a) = true := by
  simp only [effLe, Bool.or_eq_true, decide_eq_true_eq]
  exact le_total _ _

theorem sortStocks_perm (stocks : List Stock) :
    (sortStocks stocks).Perm stocks :=
  List.mergeSort_perm stocks effLe

theorem sortStocks_mem {stocks : List Stock} {s : Stock}
    (h : s ∈ sortStocks stocks) : s ∈ stocks :=
  (sortStocks_perm stocks).mem_iff.mp h

theorem sortStocks_ids_nodup {stocks : List Stock}
    (h : (stocks.map (fun s => s.id)).Nodup) :
    ((sortStocks stocks).map (fun s => s.id)).Nodup :=
  (((sortStocks_perm stocks).map (fun s => s.id)).symm).nodup h

/-- The ids of the results list produced by the main branch of the greedy
computation, in insertion order, are exactly the input stock ids. -/
theorem handleCalculateInvestment_ids (budget : ℚ) (stocks : List Stock)
    (hnd : (stocks.map (fun s => s.id)).Nodup) :
    (handleCalculateInvestment budget stocks).results.map
      (fun r => r.stockId) = stocks.map (fun s => s.id) := by
  unfold handleCalculateInvestment
  split
  · simp [zeroResult, List.map_map, Function.comp_def]
  · dsimp only
    rw [allocLoop_ids, resultsMapInit_eq stocks hnd]
    simp [zeroResult, List.map_map, Function.comp_def]

/-! ## Claim theorems -/

/-- C1: for every budget > 0 and every stock list (strictly positive prices,
non-negative expected returns, ids unique as the data model requires), after
the greedy allocation runs the sum of `investedAmount` over the produced
results is at most the budget, and the returned `totalInvested` equals that
sum. -/
theorem allocation_budget_bound (budget : ℚ) (stocks : List Stock)
    (hb : 0 < budget)
    (hp : ∀ s ∈ stocks, 0 < s.price)
    (hret : ∀ s ∈ stocks, 0 ≤ s.expectedReturn)
    (hnd : (stocks.map (fun s => s.id)).Nodup) :
    sumInvested (handleCalculateInvestment budget stocks).results ≤ budget ∧
    (handleCalculateInvestment budget stocks).totalInvested =
      sumInvested (handleCalculateInvestment budget stocks).results := by
  unfold handleCalculateInvestment
  split
  · dsimp only
    rw [sumInvested_zeroResults]
    exact ⟨hb.le, rfl⟩
  · dsimp only
    rw [resultsMapInit_eq stocks hnd]
    have hsum := allocLoop_sum (sortStocks stocks)
      { currentBudget := budget, currentTotalReturn := 0,
        currentTotalInvested := 0, resultsMap := stocks.map zeroResult }
      (by simpa [List.map_map, Function.comp_def, zeroResult] using hnd)
      (sortStocks_ids_nodup hnd)
      (fun s hs => ⟨zeroResult s,
        List.mem_map_of_mem zeroResult (sortStocks_mem hs), rfl, rfl⟩)
    have hbud := allocLoop_invested_budget (sortStocks stocks)
      { currentBudget := budget, currentTotalReturn := 0,
        currentTotalInvested := 0, resultsMap := stocks.map zeroResult }
    have hnn := allocLoop_budget_nonneg (sortStocks stocks)
      { currentBudget := budget, currentTotalReturn := 0,
        currentTotalInvested := 0, resultsMap := stocks.map zeroResult }
      (fun s hs => hp s (sortStocks_mem hs)) hb.le
    rw [sumInvested_zeroResults] at hsum
    dsimp only at hsum hbud hnn
    constructor
    · linarith
    · linarith

/-- Witness for C1 at budget 10 and the single stock
`{id := "a", price := 3, expectedReturn := 5}`. -/
theorem allocation_budget_bound_witness :
    sumInvested (handleCalculateInvestment 10
        [{ id := "a", name := "A", price := 3, expectedReturn := 5 }]).results
      ≤ 10 ∧
    (handleCalculateInvestment 10
        [{ id := "a", name := "A", price := 3,
           expectedReturn := 5 }]).totalInvested =
      sumInvested (handleCalculateInvestment 10
        [{ id := "a", name := "A", price := 3,
           expectedReturn := 5 }]).results :=
  allocation_budget_bound 10 _ (by norm_num)
    (by intro s hs; rw [List.mem_singleton.mp hs]; norm_num)
    (by intro s hs; rw [List.mem_singleton.mp hs]; norm_num)
    (by simp)

/-- C2: for every budget (including non-positive ones) and every stock list
with unique ids, the allocation returns exactly one result per input stock
— the result id list equals the input id list — and on degenerate input
(budget ≤ 0 or no stocks) every result is zero-valued and both totals are
0, without crashing. -/
theorem allocation_completeness (budget : ℚ) (stocks : List Stock)
    (hnd : (stocks.map (fun s => s.id)).Nodup) :
    (handleCalculateInvestment budget stocks).results.map (fun r => r.stockId)
        = stocks.map (fun s => s.id) ∧
    (budget ≤ 0 ∨ stocks.length = 0 →
      (handleCalculateInvestment budget stocks).results =
          stocks.map zeroResult ∧
      (handleCalculateInvestment budget stocks).totalInvested = 0 ∧
      (handleCalculateInvestment budget stocks).totalReturn = 0) := by
  refine ⟨handleCalculateInvestment_ids budget stocks hnd, fun hdeg => ?_⟩
  unfold handleCalculateInvestment
  rw [if_pos hdeg]
  exact ⟨rfl, rfl, rfl⟩

/-- Witness for C2 at budget −5 (degenerate) and one stock. -/
theorem allocation_completeness_witness :
    (handleCalculateInvestment (-5)
        [{ id := "a", name := "A", price := 3,
           expectedReturn := 5 }]).results.map (fun r => r.stockId) =
      [{ id := "a", name := "A", price := 3,
         expectedReturn := 5 : Stock }].map (fun s => s.id) ∧
    ((-5 : ℚ) ≤ 0 ∨
        [{ id := "a", name := "A", price := 3,
           expectedReturn := 5 : Stock }].length = 0 →
      (handleCalculateInvestment (-5)
          [{ id := "a", name := "A", price := 3,
             expectedReturn := 5 }]).results =
        [{ id := "a", name := "A", price := 3,
           expectedReturn := 5 : Stock }].map zeroResult ∧
      (handleCalculateInvestment (-5)
          [{ id := "a", name := "A", price := 3,
             expectedReturn := 5 }]).totalInvested = 0 ∧
      (handleCalculateInvestment (-5)
          [{ id := "a", name := "A", price := 3,
             expectedReturn := 5 }]).totalReturn = 0) :=
  allocation_completeness (-5) _ (by simp)

/-- C3: with stocks A(price 100, return 10) and B(price 50, return 10) and
budget 120, B (efficiency 0.20) is bought first: 2 whole shares for 100
(fraction 2, return 10), and the remaining 20 buys A fractionally
(fraction 0.2, invested 20, return 2); totals are 120 and 12.  The results
list is in input order (A first), as the insertion-ordered map dictates. -/
theorem greedy_example_allocation :
    handleCalculateInvestment 120
        [{ id := "a", name := "A", price := 100, expectedReturn := 10 },
         { id := "b", name := "B", price := 50, expectedReturn := 10 }] =
      { results := [{ stockId := "a", stockName := "A", fraction := 1/5,
                      investedAmount := 20, actualReturn := 2 },
                    { stockId := "b", stockName := "B", fraction := 2,
                      investedAmount := 100, actualReturn := 10 }],
        totalInvested := 120, totalReturn := 12 } := by
  norm_num [handleCalculateInvestment, sortStocks, List.mergeSort, effLe,
    efficiency, List.merge, allocLoop, mapSet, mapUpdate, zeroResult, buyOf]
  simp

/-- C4 (code bug): removing stock "x" (price 50, return 20) from the pair
{"x", "y" (price 50, return 10)} at budget 100.  The spec requires the
outcome of `removeStock` to equal a fresh greedy allocation over the
remaining stocks only, but the deferred recalculation runs the stale
closure over the original list: the published results still contain an
entry for the removed stock "x" with 100 invested, while "y" stays at 0 —
unlike `allocate(100, [y])`, which invests the 100 in "y". -/
theorem removeStock_stale_recalculation :
    (handleRemoveStock 100
        [{ id := "x", name := "X", price := 50, expectedReturn := 20 },
         { id := "y", name := "Y", price := 50, expectedReturn := 10 }]
        "x").1 =
      [{ id := "y", name := "Y", price := 50, expectedReturn := 10 }] ∧
    (handleRemoveStock 100
        [{ id := "x", name := "X", price := 50, expectedReturn := 20 },
         { id := "y", name := "Y", price := 50, expectedReturn := 10 }]
        "x").2 =
      { results := [{ stockId := "x", stockName := "X", fraction := 2,
                      investedAmount := 100, actualReturn := 20 },
                    { stockId := "y", stockName := "Y", fraction := 0,
                      investedAmount := 0, actualReturn := 0 }],
        totalInvested := 100, totalReturn := 20 } ∧
    (handleRemoveStock 100
        [{ id := "x", name := "X", price := 50, expectedReturn := 20 },
         { id := "y", name := "Y", price := 50, expectedReturn := 10 }]
        "x").2 ≠
      handleCalculateInvestment 100
        [{ id := "y", name := "Y", price := 50, expectedReturn := 10 }] := by
  refine ⟨?_, ?_, ?_⟩
  · norm_num [handleRemoveStock]
    simp
  · norm_num [handleRemoveStock, handleCalculateInvestment, sortStocks,
      List.mergeSort, effLe, efficiency, List.merge, allocLoop, mapSet,
      mapUpdate, zeroResult, buyOf]
    simp
  · norm_num [handleRemoveStock, handleCalculateInvestment, sortStocks,
      List.mergeSort, effLe, efficiency, List.merge, allocLoop, mapSet,
      mapUpdate, zeroResult, buyOf]

/-- C5: every produced result entry satisfies
`actualReturn = investedAmount * expectedReturn / 100` for its stock, after
the initial allocation, after a removal (whose deferred recalculation runs
over the original stock list, so the entries reference stocks of that
list), and after a successful manual adjustment (which preserves the
relation). -/
theorem return_consistency (budget : ℚ) (stocks : List Stock)
    (id stockId : String) (st stNext : AdjustState) (amt : JSNum)
    (hinv : returnInvariant stocks st.results)
    (hadj : handleAdjustInvestment budget stocks st stockId amt =
      (stNext, none)) :
    returnInvariant stocks (handleCalculateInvestment budget stocks).results ∧
    returnInvariant stocks (handleRemoveStock budget stocks id).2.results ∧
    returnInvariant stocks stNext.results := by
  have halloc : returnInvariant stocks
      (handleCalculateInvestment budget stocks).results := by
    unfold handleCalculateInvestment
    split
    · dsimp only
      intro r hr
      obtain ⟨s, hs, hrs⟩ := List.mem_map.mp hr
      exact ⟨s, hs, by rw [← hrs]; exact ⟨rfl, by simp [zeroResult]⟩⟩
    · dsimp only
      apply allocLoop_returnInvariant _ _ stocks
        (fun s hs => sortStocks_mem hs)
      intro r hr
      rcases mem_foldl_mapSet stocks [] r hr with h | ⟨s, hs, hrs⟩
      · cases h
      · exact ⟨s, hs, by rw [hrs]; exact ⟨rfl, by simp [zeroResult]⟩⟩
  refine ⟨halloc, halloc, ?_⟩
  unfold handleAdjustInvestment at hadj
  split at hadj
  · simp at hadj
  · split at hadj
    · simp at hadj
    · next stockToAdjust heq =>
      dsimp only at hadj
      split at hadj
      · simp at hadj
      · rw [Prod.mk.injEq] at hadj
        obtain ⟨hst', -⟩ := hadj
        rw [← hst']
        dsimp only
        intro r' hr'
        obtain ⟨r, hr, hrr'⟩ := List.mem_map.mp hr'
        by_cases hc : r.stockId = stockId
        · have hmem : stockToAdjust ∈ stocks := List.mem_of_find?_eq_some heq
          have hid : stockToAdjust.id = stockId := by
            have h := List.find?_some heq
            simpa using h
          refine ⟨stockToAdjust, hmem, ?_, ?_⟩
          · rw [← hrr', if_pos hc]
            exact hid.symm ▸ hc
          · rw [← hrr', if_pos hc]
        · rw [← hrr', if_neg hc]
          exact hinv r hr

/-- Witness for C5: stock "a" (price 2, return 50%), budget 10, one
zero-valued result entry, successfully adjusted to 4. -/
theorem return_consistency_witness :
    returnInvariant
        [{ id := "a", name := "A", price := 2, expectedReturn := 50 }]
        (handleCalculateInvestment 10
          [{ id := "a", name := "A", price := 2,
             expectedReturn := 50 }]).results ∧
    returnInvariant
        [{ id := "a", name := "A", price := 2, expectedReturn := 50 }]
        (handleRemoveStock 10
          [{ id := "a", name := "A", price := 2, expectedReturn := 50 }]
          "a").2.results ∧
    returnInvariant
        [{ id := "a", name := "A", price := 2, expectedReturn := 50 }]
        ({ results := [{ stockId := "a", stockName := "A", fraction := 2,
                         investedAmount := 4, actualReturn := 2 }],
           totalInvestedAmount := 4,
           totalActualReturn := 2 } : AdjustState).results :=
  return_consistency 10 _ "a" "a"
    { results := [{ stockId := "a", stockName := "A", fraction := 0,
                    investedAmount := 0, actualReturn := 0 }],
      totalInvestedAmount := 0, totalActualReturn := 0 }
    _ (.fin 4)
    (by
      intro r hr
      rw [List.mem_singleton.mp hr]
      exact ⟨_, List.mem_singleton_self _, rfl, by norm_num⟩)
    (by
      norm_num [handleAdjustInvestment, currentInvested, JSNum.isNaN,
        JSNum.ltZero, JSNum.subFin, JSNum.finAdd, JSNum.gtFin, JSNum.toQ,
        sumInvested, sumActualReturn])

/-- C6: when the adjusted stock exists, the amount is a valid non-negative
number, and `totalInvested + (newAmount - currentInvestedAmount) > budget`,
the adjustment fails with the Budget-Exceeded error (carrying the attempted
amount, the budget and the current total) and returns the state
unchanged. -/
theorem adjust_rejects_over_budget (budget : ℚ) (stocks : List Stock)
    (st : AdjustState) (stockId : String) (a : ℚ)
    (hex : ∃ s ∈ stocks, s.id = stockId)
    (ha : 0 ≤ a)
    (hover : budget < st.totalInvestedAmount +
      (a - currentInvested st.results stockId)) :
    handleAdjustInvestment budget stocks st stockId (.fin a) =
      (st, some (.budgetExceeded (.fin a) budget st.totalInvestedAmount)) := by
  obtain ⟨sX, hsX, hsXid⟩ := hex
  unfold handleAdjustInvestment
  rw [if_neg (by
    simp only [JSNum.isNaN, JSNum.ltZero, Bool.false_or,
      decide_eq_true_eq, not_lt]
    exact ha)]
  split
  · next hnone =>
    rw [List.find?_eq_none] at hnone
    exact absurd (by simpa using hsXid) (hnone sX hsX)
  · next sY heq =>
    dsimp only
    rw [if_pos (by
      simp only [JSNum.subFin, JSNum.finAdd, JSNum.gtFin, decide_eq_true_eq]
      exact hover)]

/-- Witness for C6, the spec's own example: totalInvested 80 on budget 100,
stock "x" currently at 20, adjusting "x" to 45 (new total 105). -/
theorem adjust_rejects_over_budget_witness :
    handleAdjustInvestment 100
        [{ id := "x", name := "X", price := 50, expectedReturn := 10 }]
        { results := [{ stockId := "x", stockName := "X", fraction := 2/5,
                        investedAmount := 20, actualReturn := 2 },
                      { stockId := "y", stockName := "Y", fraction := 1,
                        investedAmount := 60, actualReturn := 3 }],
          totalInvestedAmount := 80, totalActualReturn := 5 }
        "x" (.fin 45) =
      ({ results := [{ stockId := "x", stockName := "X", fraction := 2/5,
                       investedAmount := 20, actualReturn := 2 },
                     { stockId := "y", stockName := "Y", fraction := 1,
                       investedAmount := 60, actualReturn := 3 }],
         totalInvestedAmount := 80, totalActualReturn := 5 },
        some (.budgetExceeded (.fin 45) 100 80)) :=
  adjust_rejects_over_budget 100 _ _ "x" 45
    ⟨_, List.mem_singleton_self _, rfl⟩
    (by norm_num)
    (by norm_num [currentInvested, List.find?])

theorem list_map_id_of_mem {α : Type} (l : List α) (f : α → α)
    (h : ∀ x ∈ l, f x = x) : l.map f = l := by
  induction l with
  | nil => rfl
  | cons hd tl ih =>
    rw [List.map_cons, h hd (List.mem_cons_self hd tl),
      ih fun x hx => h x (List.mem_cons_of_mem hd hx)]

/-- C7: a successful manual adjustment of `stockId` to amount `a` sets that
entry's `investedAmount` to `a`, `fraction` to `a / price` and
`actualReturn` to `a * expectedReturn / 100`, leaves every other entry
entirely unchanged, and returns totals that are fresh sums of
`investedAmount` and `actualReturn` over all entries. -/
theorem adjust_success_effect (budget : ℚ) (stocks : List Stock)
    (st stNext : AdjustState) (stockId : String) (a : ℚ)
    (stockToAdjust : Stock)
    (hfind : stocks.find? (fun s => decide (s.id = stockId)) =
      some stockToAdjust)
    (hadj : handleAdjustInvestment budget stocks st stockId (.fin a) =
      (stNext, none)) :
    stNext.results.length = st.results.length ∧
    (∀ i (hi : i < st.results.length) (hi2 : i < stNext.results.length),
      ((st.results.get ⟨i, hi⟩).stockId = stockId →
        stNext.results.get ⟨i, hi2⟩ =
          { st.results.get ⟨i, hi⟩ with
              fraction := a / stockToAdjust.price,
              investedAmount := a,
              actualReturn := a * (stockToAdjust.expectedReturn / 100) }) ∧
      ((st.results.get ⟨i, hi⟩).stockId ≠ stockId →
        stNext.results.get ⟨i, hi2⟩ = st.results.get ⟨i, hi⟩)) ∧
    stNext.totalInvestedAmount = sumInvested stNext.results ∧
    stNext.totalActualReturn = sumActualReturn stNext.results := by
  unfold handleAdjustInvestment at hadj
  split at hadj
  · simp at hadj
  · split at hadj
    · simp at hadj
    · next sY heq =>
      rw [hfind] at heq
      have hsY : sY = stockToAdjust := by
        injection heq with h
        exact h.symm
      subst hsY
      dsimp only at hadj
      split at hadj
      · simp at hadj
      · rw [Prod.mk.injEq] at hadj
        obtain ⟨hst, -⟩ := hadj
        rw [← hst]
        refine ⟨List.length_map _ _, fun i hi hi2 => ⟨?_, ?_⟩, rfl, rfl⟩
        · intro hid
          simp only [List.get_eq_getElem] at hid
          simp only [List.get_eq_getElem, List.getElem_map]
          rw [if_pos hid]
          rfl
        · intro hid
          simp only [List.get_eq_getElem] at hid
          simp only [List.get_eq_getElem, List.getElem_map]
          rw [if_neg hid]

/-- Witness for C7: adjusting the sole entry of stock "a" (price 2, return
50%) to 4 on budget 10 succeeds; the returned totals are the fresh sums. -/
theorem adjust_success_effect_witness :
    (⟨[⟨"a", "A", 2, 4, 2⟩], 4, 2⟩ : AdjustState).totalInvestedAmount =
      sumInvested (⟨[⟨"a", "A", 2, 4, 2⟩], 4, 2⟩ : AdjustState).results ∧
    (⟨[⟨"a", "A", 2, 4, 2⟩], 4, 2⟩ : AdjustState).totalActualReturn =
      sumActualReturn (⟨[⟨"a", "A", 2, 4, 2⟩], 4, 2⟩ : AdjustState).results :=
  (adjust_success_effect 10 [⟨"a", "A", 2, 50⟩]
    ⟨[⟨"a", "A", 0, 0, 0⟩], 0, 0⟩ _ "a" 4 ⟨"a", "A", 2, 50⟩
    (by norm_num [List.find?])
    (by
      norm_num [handleAdjustInvestment, currentInvested, JSNum.isNaN,
        JSNum.ltZero, JSNum.subFin, JSNum.finAdd, JSNum.gtFin, JSNum.toQ,
        sumInvested, sumActualReturn])).2.2

/-- C8 counterexample: adjusting stock "x" to the parsed amount `Infinity`
(budget 100, one zero-valued entry, totals 0).  The claim says every
non-finite amount fails with the Invalid-Input error; the code's input
check `isNaN(newAmount) || newAmount < 0` lets `Infinity` through, and the
request is rejected by the budget check with the Budget-Exceeded error
instead. -/
theorem adjust_infinity_counterexample :
    (handleAdjustInvestment 100
        [⟨"x", "X", 50, 10⟩] ⟨[⟨"x", "X", 0, 0, 0⟩], 0, 0⟩ "x"
        .posInf).2 = some (.budgetExceeded .posInf 100 0) ∧
    (handleAdjustInvestment 100
        [⟨"x", "X", 50, 10⟩] ⟨[⟨"x", "X", 0, 0, 0⟩], 0, 0⟩ "x"
        .posInf).2 ≠ some .invalidInput := by
  constructor
  · norm_num [handleAdjustInvestment, currentInvested, List.find?,
      JSNum.isNaN, JSNum.ltZero, JSNum.subFin, JSNum.finAdd, JSNum.gtFin]
  · norm_num [handleAdjustInvestment, currentInvested, List.find?,
      JSNum.isNaN, JSNum.ltZero, JSNum.subFin, JSNum.finAdd, JSNum.gtFin]
    exact fun h => AdjustError.noConfusion h

/-- C8 (amended): an adjustment amount that parses to `NaN` or to a
negative number (including `-Infinity`) fails with the Invalid-Input error
and leaves the state unchanged; an amount that parses to `+Infinity`
passes the input validation and is instead rejected — with some other
error (Budget-Exceeded, or Not-Found when the stock is absent) — again
leaving the state unchanged. -/
theorem adjust_invalid_input_behavior (budget : ℚ) (stocks : List Stock)
    (st : AdjustState) (stockId : String) (amt : JSNum) :
    ((amt.isNaN || amt.ltZero) = true →
      handleAdjustInvestment budget stocks st stockId amt =
        (st, some .invalidInput)) ∧
    (amt = .posInf →
      ∃ e, handleAdjustInvestment budget stocks st stockId amt =
        (st, some e) ∧ e ≠ AdjustError.invalidInput) := by
  constructor
  · intro hbad
    unfold handleAdjustInvestment
    rw [if_pos hbad]
  · rintro rfl
    unfold handleAdjustInvestment
    rw [if_neg (by simp [JSNum.isNaN, JSNum.ltZero])]
    split
    · exact ⟨.stockNotFound, rfl, by simp⟩
    · dsimp only
      rw [if_pos (by simp [JSNum.subFin, JSNum.finAdd, JSNum.gtFin])]
      exact ⟨_, rfl, by simp⟩

/-- C9: the greedy pass sorts by efficiency descending, and the sort is
stable: the stocks of any one efficiency value appear in the sorted list
exactly in their original relative order (their sublists coincide).  The
whole computation is a pure function of the input list, so the output is a
deterministic function of the input values and order. -/
theorem greedy_sort_stable (stocks : List Stock) :
    List.Pairwise (fun a b => efficiency b ≤ efficiency a)
      (sortStocks stocks) ∧
    ∀ q : ℚ,
      (sortStocks stocks).filter (fun s => decide (efficiency s = q)) =
        stocks.filter (fun s => decide (efficiency s = q)) := by
  constructor
  · have h := List.sorted_mergeSort effLe_trans effLe_total stocks
    exact h.imp fun hab => by simpa [effLe] using hab
  · intro q
    have hsub : (stocks.filter (fun s => decide (efficiency s = q))).Sublist
        stocks := List.filter_sublist stocks
    have hpw : List.Pairwise (fun a b => effLe a b = true)
        (stocks.filter (fun s => decide (efficiency s = q))) := by
      apply List.pairwise_of_forall_mem_list
      intro a ha b hb
      have ha2 := (List.mem_filter.mp ha).2
      have hb2 := (List.mem_filter.mp hb).2
      simp only [decide_eq_true_eq] at ha2 hb2
      simp only [effLe, decide_eq_true_eq]
      rw [ha2, hb2]
    have h1 : (stocks.filter (fun s => decide (efficiency s = q))).Sublist
        (sortStocks stocks) :=
      List.sublist_mergeSort effLe_trans effLe_total hpw hsub
    have h2 := h1.filter (fun s => decide (efficiency s = q))
    rw [List.filter_eq_self.mpr
      (fun a ha => (List.mem_filter.mp ha).2)] at h2
    have hperm : ((sortStocks stocks).filter
        (fun s => decide (efficiency s = q))).Perm
        (stocks.filter (fun s => decide (efficiency s = q))) :=
      (sortStocks_perm stocks).filter _
    exact (h2.eq_of_length hperm.length_eq.symm).symm

/-- C10: adjusting a stock that exists in the stock list but has no entry
in the current results (e.g. before any allocation has run) reports no
error: the current invested amount is taken as 0 for the budget check, no
entry is created or modified, and both totals are recomputed as sums over
the existing entries only — the requested amount is recorded nowhere. -/
theorem adjust_missing_entry (budget : ℚ) (stocks : List Stock)
    (st : AdjustState) (stockId : String) (a : ℚ) (stockS : Stock)
    (hfind : stocks.find? (fun s => decide (s.id = stockId)) = some stockS)
    (hnone : st.results.find? (fun r => decide (r.stockId = stockId)) = none)
    (ha : 0 ≤ a)
    (hbud : st.totalInvestedAmount + a ≤ budget) :
    handleAdjustInvestment budget stocks st stockId (.fin a) =
      ({ results := st.results,
         totalInvestedAmount := sumInvested st.results,
         totalActualReturn := sumActualReturn st.results }, none) := by
  unfold handleAdjustInvestment
  rw [if_neg (by
    simp only [JSNum.isNaN, JSNum.ltZero, Bool.false_or,
      decide_eq_true_eq, not_lt]
    exact ha)]
  split
  · next hn =>
    rw [hfind] at hn
    cases hn
  · next s heq =>
    dsimp only
    have hcur : currentInvested st.results stockId = 0 := by
      unfold currentInvested
      rw [hnone]
      rfl
    rw [hcur]
    rw [if_neg (by
      simp only [JSNum.subFin, JSNum.finAdd, JSNum.gtFin,
        decide_eq_true_eq, not_lt, sub_zero]
      exact hbud)]
    have hmap : st.results.map (fun result =>
        if result.stockId = stockId then
          { result with
            fraction := (JSNum.fin a).toQ / s.price,
            investedAmount := (JSNum.fin a).toQ,
            actualReturn := (JSNum.fin a).toQ *
              (s.expectedReturn / 100) }
        else result) = st.results := by
      apply list_map_id_of_mem
      intro r hr
      rw [if_neg]
      exact fun hc => (List.find?_eq_none.mp hnone r hr) (by simpa using hc)
    rw [hmap]

/-- Witness for C10: stock "x" exists but the result collection is empty;
adjusting "x" to 30 on budget 100 silently succeeds with no change. -/
theorem adjust_missing_entry_witness :
    handleAdjustInvestment 100 [⟨"x", "X", 50, 10⟩]
        ⟨[], 0, 0⟩ "x" (.fin 30) =
      ({ results := [], totalInvestedAmount := sumInvested [],
         totalActualReturn := sumActualReturn [] }, none) :=
  adjust_missing_entry 100 _ _ "x" 30 ⟨"x", "X", 50, 10⟩
    (by norm_num [List.find?]) rfl (by norm_num) (by norm_num)
